import Mathlib

/-!
Verification of the displacy-flex repository: a shallow embedding of the
span-alignment, span-merge, document-structuring and palette code from
`src/DISPLAY/display.py` (free functions) and
`src/displacy_flex/visualizer.py` (class `DisplaCyFlex`), together with
theorems settling the specification claims.

Python strings are modelled as `List Char` (Python indexes by code point),
spans as `Int × Int` so that the `(-1, -1)` sentinel is representable, and
fallible Python code (exceptions such as `IndexError`) as `Option`-returning
functions where `none` stands for a raised exception.
-/

namespace DisplacyFlex

/-! ## Span alignment (`indices` in display.py and visualizer.py)

Both sources run `re.finditer(re.escape(word), text)`, keep the spans whose
start is `>= base`, and take the first if any.  Since the pattern is escaped,
a match of the pattern is exactly a literal substring occurrence, and
`finditer` yields the left-to-right *non-overlapping* occurrences: after a
match at `p` the scan resumes at `p + len(word)` (or `p + 1` for an empty
word, which matches at every position). -/

/-- `matchesAt w t i` is true iff the word `w` occurs in `t` as a literal
substring starting at code-point offset `i` (the Python condition
`text[i:i+len(w)] == w`; a truncated slice has the wrong length and fails). -/
def matchesAt (w t : List Char) (i : Nat) : Bool :=
  (t.drop i).take w.length == w

/-- All substring occurrence start offsets of `w` in `t`, in increasing order. -/
def occs (w t : List Char) : List Nat :=
  (List.range (t.length + 1)).filter (matchesAt w t)

/-- Non-overlapping left-to-right selection among candidate start offsets:
from the current scan position, pick the first candidate at or after it and
resume `step` characters later.  With `step = max (length w) 1` over the
sorted list of all occurrences this is exactly the set of matches
`regex.finditer` yields (one-character advance after a zero-width match). -/
def selOcc (step : Nat) : List Nat → Nat → List Nat
  | [], _ => []
  | p :: ps, pos => if pos ≤ p then p :: selOcc step ps (p + step) else selOcc step ps pos

/-- The list of `m.span()` values produced by
`re.finditer(re.escape(w), t)`: the non-overlapping occurrences, each as a
`(start, start + len w)` pair. -/
def finditerL (w t : List Char) : List (Nat × Nat) :=
  (selOcc (max w.length 1) (occs w t) 0).map (fun p => (p, p + w.length))

/-- Embeds the cursor loop shared by `indices` (display.py, lines 46-70) and
`DisplaCyFlex.indices` (visualizer.py, lines 85-102): filter the finditer
spans by `start >= base`, emit the first and advance `base` to its end, or
emit `(-1, -1)` and keep `base`. -/
def indicesAuxL : List (List Char) → List Char → Nat → List (Int × Int)
  | [], _, _ => []
  | w :: ws, t, base =>
    match (finditerL w t).filter (fun p => base ≤ p.1) with
    | [] => ((-1 : Int), (-1 : Int)) :: indicesAuxL ws t base
    | p :: _ => ((p.1 : Int), (p.2 : Int)) :: indicesAuxL ws t p.2

/-- `indices(words, text)` on code-point lists, starting from `base = 0`. -/
def indicesL (words : List (List Char)) (t : List Char) : List (Int × Int) :=
  indicesAuxL words t 0

/-- `indices(words, text)` on Lean strings. -/
def indices (words : List String) (text : String) : List (Int × Int) :=
  indicesL (words.map (fun w => w.data)) text.data

/-- Written from the words of claim C1 (not from the source): for each word
select the first occurrence of the word as a literal substring of the text
whose start offset is `>= base` — i.e. the minimum over *all* substring
occurrences, overlapping ones included. -/
def alignClaimAux : List (List Char) → List Char → Nat → List (Int × Int)
  | [], _, _ => []
  | w :: ws, t, base =>
    match (occs w t).filter (fun p => base ≤ p) with
    | [] => ((-1 : Int), (-1 : Int)) :: alignClaimAux ws t base
    | p :: _ => ((p : Int), ((p + w.length : Nat) : Int)) :: alignClaimAux ws t (p + w.length)

/-- Claim-side alignment on Lean strings (see `alignClaimAux`). -/
def alignClaim (words : List String) (text : String) : List (Int × Int) :=
  alignClaimAux (words.map (fun w => w.data)) text.data 0

/-- The amended claim-side alignment: as claim C1 describes, except that the
occurrence selected is the first *non-overlapping* (finditer) occurrence with
start `>= base`, phrased with `List.find?` over the finditer list. -/
def alignAmendedAux : List (List Char) → List Char → Nat → List (Int × Int)
  | [], _, _ => []
  | w :: ws, t, base =>
    match (finditerL w t).find? (fun p => base ≤ p.1) with
    | none => ((-1 : Int), (-1 : Int)) :: alignAmendedAux ws t base
    | some p => ((p.1 : Int), (p.2 : Int)) :: alignAmendedAux ws t p.2

/-- Amended claim-side alignment on Lean strings. -/
def alignAmended (words : List String) (text : String) : List (Int × Int) :=
  alignAmendedAux (words.map (fun w => w.data)) text.data 0

/-! ## Merge (`merge` in display.py, `DisplaCyFlex.merge` in visualizer.py)

`DisplaCyFlex.merge` (visualizer.py, lines 123-150) seeds a buffer with the
first tag/word/span (raising `IndexError` on empty input, modelled as `none`)
and folds the zipped tails into it, flushing the buffer whenever the tag
changes.  `merge` (display.py, lines 98-121) instead precomputes the mask of
adjacent-equal tags and splices the lists in place; element accesses that
would raise `IndexError` are modelled as `none`. -/

/-- The buffer loop of `DisplaCyFlex.merge`: `rest` is
`zip(tags[1:], zip(words[1:], indices[1:]))`, and `bt`, `bw`, `bs` the
buffered tag, word and span. -/
def mergeVAux : List (String × String × (Int × Int)) → String → String → (Int × Int) →
    List String × List String × List (Int × Int)
  | [], bt, bw, bs => ([bt], [bw], [bs])
  | (t, w, s) :: rest, bt, bw, bs =>
    if t = bt then
      mergeVAux rest bt (bw ++ " " ++ w) (bs.1, s.2)
    else
      let r := mergeVAux rest t w s
      (bt :: r.1, bw :: r.2.1, bs :: r.2.2)

/-- Embeds `DisplaCyFlex.merge`.  Accessing `words[0]`, `tags[0]`,
`indices[0]` on an empty list raises `IndexError`, hence `none`; `zip`
truncates to the shortest tail, as in Python. -/
def mergeV (tags words : List String) (ind : List (Int × Int)) :
    Option (List String × List String × List (Int × Int)) :=
  match words, tags, ind with
  | w :: ws, t :: ts, s :: ss => some (mergeVAux (ts.zip (ws.zip ss)) t w s)
  | _, _, _ => none

/-- One in-place merge step of display.py's `merge` at current index `i`:
`T[i:i+2] = [T[i]]`, `words[i:i+2] = [' '.join(words[i:i+2])]`,
`ind[i:i+2] = [(ind[i][0], ind[i+1][1])]`.  Python slice assignment clamps
out-of-range slices, so it is splicing with `take`/`drop`; the plain index
accesses `T[i]`, `ind[i]`, `ind[i+1]` raise `IndexError` out of range
(`none`).  `' '.join` of the at-most-two-element slice is inlined. -/
def mergeDStep (i : Nat) (T W : List String) (I : List (Int × Int)) :
    Option (List String × List String × List (Int × Int)) :=
  match T.get? i with
  | none => none
  | some t =>
    let T' := T.take i ++ [t] ++ T.drop (i + 2)
    let joined : String :=
      match (W.drop i).take 2 with
      | [x, y] => x ++ " " ++ y
      | [x] => x
      | _ => ""
    let W' := W.take i ++ [joined] ++ W.drop (i + 2)
    match I.get? i, I.get? (i + 1) with
    | some a, some b => some (T', W', I.take i ++ [(a.1, b.2)] ++ I.drop (i + 2))
    | _, _ => none

/-- The index loop of display.py's `merge`: walk the precomputed mask; on a
`True` entry merge in place at the current index `i`, otherwise advance `i`. -/
def mergeDAux : List Bool → Nat → List String × List String × List (Int × Int) →
    Option (List String × List String × List (Int × Int))
  | [], _, st => some st
  | b :: rest, i, (T, W, I) =>
    if b then
      match mergeDStep i T W I with
      | none => none
      | some st => mergeDAux rest i st
    else mergeDAux rest (i + 1) (T, W, I)

/-- Embeds `merge` (display.py).  The mask is
`np.append(tags[:-1] == tags[1:], [False])` and the loop runs over
`range(len(msk) - 1)`, i.e. over exactly the `len(tags) - 1` adjacent
comparisons (the appended `False` is never consulted). -/
def mergeD (tags words : List String) (ind : List (Int × Int)) :
    Option (List String × List String × List (Int × Int)) :=
  mergeDAux (List.zipWith (fun a b => a == b) tags tags.tail) 0 (tags, words, ind)

/-! ## Document structuring (`structure` in display.py,
`DisplaCyFlex.structure_data` in visualizer.py) -/

/-- One entity of the structured document.  The field `stop` embeds the
source dictionary key `end` (a Lean keyword). -/
structure Ent where
  start : Int
  stop : Int
  label : String
deriving DecidableEq, Repr

/-- The `{text, ents, title}` dictionary handed to the renderer. -/
structure Doc where
  text : String
  ents : List Ent
  title : String
deriving DecidableEq, Repr

/-- Embeds `DisplaCyFlex.structure_data` (visualizer.py, lines 152-168):
keep exactly the `(tag, (start, end))` pairs with `tag != 'O'` and
`start >= 0`, in order. -/
def structure_data (text : String) (tags : List String) (ind : List (Int × Int))
    (title : String) : Doc :=
  { text := text
    ents := ((tags.zip ind).filter (fun p => p.1 ≠ "O" ∧ 0 ≤ p.2.1)).map
      (fun p => ⟨p.2.1, p.2.2, p.1⟩)
    title := title }

/-- Embeds `structure` (display.py, lines 123-142): the comprehension runs
`for i in range(len(tags))` and indexes `ind[i]`, so a shorter `ind` raises
`IndexError` (`none`); under the guard the comprehension is the zip filtered
on `tag != 'O'` only — invalid spans are NOT filtered out here. -/
def structureD (text : String) (tags : List String) (ind : List (Int × Int))
    (title : String) : Option Doc :=
  if tags.length ≤ ind.length then
    some { text := text
           ents := ((tags.zip ind).filter (fun p => p.1 ≠ "O")).map
             (fun p => ⟨p.2.1, p.2.2, p.1⟩)
           title := title }
  else none

/-- Written from the words of claim C2: the entities are exactly the
`{start, end, label}` triples at indices `i` where the tag differs from
`'O'` and the span is valid (`start >= 0`), in index order. -/
def entsIdxBoth (tags : List String) (ind : List (Int × Int)) : List Ent :=
  (List.range tags.length).filterMap (fun i =>
    match tags.get? i, ind.get? i with
    | some tg, some sp => if tg ≠ "O" ∧ 0 ≤ sp.1 then some ⟨sp.1, sp.2, tg⟩ else none
    | _, _ => none)

/-- Index-order comprehension with only the `tag != 'O'` filter (what
display.py's `structure` actually implements). -/
def entsIdxTag (tags : List String) (ind : List (Int × Int)) : List Ent :=
  (List.range tags.length).filterMap (fun i =>
    match tags.get? i, ind.get? i with
    | some tg, some sp => if tg ≠ "O" then some ⟨sp.1, sp.2, tg⟩ else none
    | _, _ => none)

/-! ## Span-list invariants used by the claims -/

/-- A span list is chained from `b`: every span starts at or after the
previous span's end (which starts at or after `b`), and every span is valid
(`start < end`). -/
def SChain : Int → List (Int × Int) → Prop
  | _, [] => True
  | b, sp :: r => b ≤ sp.1 ∧ sp.1 < sp.2 ∧ SChain sp.2 r

/-- The invariant claim C5 asserts of an entity list: entities are
non-overlapping and sorted by start ascending, and every entity's span is
valid (`0 ≤ start < end`). -/
def EntsOK (l : List Ent) : Prop :=
  l.Pairwise (fun a b => a.stop ≤ b.start ∧ a.start < b.start) ∧
    ∀ e ∈ l, 0 ≤ e.start ∧ e.start < e.stop

/-- What alignment guarantees about the word/span pairs it emits, starting
from cursor `base`: each span is either the `(-1, -1)` sentinel (cursor
unchanged) or `(s, s + len w)` for a literal occurrence of `w` at `s ≥ base`
(cursor advanced to the end). -/
def WChain (t : List Char) : Nat → List (List Char × (Int × Int)) → Prop
  | _, [] => True
  | base, (w, sp) :: r =>
      (sp = ((-1 : Int), (-1 : Int)) ∧ WChain t base r) ∨
      (∃ s : Nat, base ≤ s ∧ sp = ((s : Int), ((s + w.length : Nat) : Int)) ∧
        (t.drop s).take w.length = w ∧ WChain t (s + w.length) r)

/-! ## Palette construction (`DisplaCyFlex.__init__` helpers in
visualizer.py, `config_setup` in display.py) -/

/-- The class palette `DisplaCyFlex.DEFAULT_COLORS` (13 colors). -/
def DEFAULT_COLORS : List String :=
  ["#f8e71c", "#e4e7d2", "#7aecec", "#bfeeb7", "#feca74",
   "#ff9561", "#aa9cfc", "#c887fb", "#9cc9cc", "#ffeb80",
   "#ff8197", "#f0d0ff", "#bfe1d9"]

/-- The free-function palette `DEFAULT_COLORS` of display.py's
`config_setup` (19 entries; `#ff8197`, `#bfe1d9` appear twice and `#e4e7d2`
five times, leaving 13 distinct colors). -/
def DEFAULT_COLORS_D : List String :=
  ["#f8e71c", "#e4e7d2", "#7aecec", "#bfeeb7", "#feca74",
   "#ff9561", "#aa9cfc", "#c887fb", "#9cc9cc", "#ffeb80",
   "#ff8197", "#ff8197", "#f0d0ff", "#bfe1d9", "#bfe1d9",
   "#e4e7d2", "#e4e7d2", "#e4e7d2", "#e4e7d2"]

/-- Python dict assignment `m[k] = v` on an insertion-ordered association
list: overwrite in place if the key is present, else append. -/
def dinsert (m : List (String × String)) (k v : String) : List (String × String) :=
  if m.any (fun p => p.1 = k) then m.map (fun p => if p.1 = k then (k, v) else p)
  else m ++ [(k, v)]

/-- The color assigned to position `i` by `_generate_colors`:
`DEFAULT_COLORS[i % len(DEFAULT_COLORS)] + alpha`. -/
def colorAt (i : Nat) (alpha : String) : String :=
  DEFAULT_COLORS.getD (i % DEFAULT_COLORS.length) "" ++ alpha

/-- Embeds `DisplaCyFlex._generate_colors` (visualizer.py, lines 58-68):
`for i, lbl in enumerate(labels): colors[lbl] = DEFAULT_COLORS[i % 13] + alpha`.
The modulus keeps the index in range, so the `getD` default is never used. -/
def generate_colors (lbls : List String) (alpha : String) : List (String × String) :=
  lbls.enum.foldl (fun m iv => dinsert m iv.2 (colorAt iv.1 alpha)) []

/-- Stable insertion of index `i` into an index list sorted by strictly
descending key: `i` goes after every index with key `≥ key i`. -/
def insIdx (key : Nat → Int) (i : Nat) : List Nat → List Nat
  | [] => [i]
  | j :: js => if key j < key i then i :: j :: js else j :: insIdx key i js

/-- Models `np.argsort(-frequencies)`: the indices of `xs` ordered by
descending value.  NumPy's default sort leaves the order of ties
implementation-defined (but deterministic); this model resolves ties by
original position. -/
def argsortDesc (xs : List Int) : List Nat :=
  (List.range xs.length).foldl (fun acc i => insIdx (fun k => xs.getD k 0) i acc) []

/-- Models NumPy fancy indexing `np.array(xs)[idx].tolist()`: an
out-of-bounds index raises `IndexError` (`none`); otherwise the selected
elements, which silently truncate/reorder `xs` when `idx` is shorter. -/
def npIndex (xs : List String) (idx : List Nat) : Option (List String) :=
  if idx.all (fun i => i < xs.length) then some (idx.map (fun i => xs.getD i "")) else none

/-- Embeds `DisplaCyFlex._prepare_labels` (visualizer.py, lines 43-56): with
frequencies, reorder the labels by `np.argsort(-frequencies)`; then prepend
the default label unconditionally. -/
def prepare_labels (default_label : String) (labels : List String)
    (frequencies : Option (List Int)) : Option (List String) :=
  match frequencies with
  | none => some (default_label :: labels)
  | some freq =>
    match npIndex labels (argsortDesc freq) with
    | some sorted => some (default_label :: sorted)
    | none => none

/-! ## Module-level configuration (`config_setup` in display.py) -/

/-- The HTML template `TPL_ENT_RTL` of display.py (whitespace condensed to
escaped newlines). -/
def TPL_ENT_RTL : String :=
  "  \n        <mark class=\"entity\" style=\"background: {bg}; padding: 0.20em 0.35em; margin: 0 0.25em; line-height: 1; border-radius: 0.4em\">\n            {text}\n            <span style=\"font-size: 0.8em; font-weight: bold; font-family: ariel; line-height: 1; border-radius: 0.35em; vertical-align: middle; margin-left: 0.5rem; margin-right: 0.2rem\">{label}{kb_link}</span>\n        </mark>\n        "

/-- `alpha = '95'` in `config_setup`. -/
def alphaD : String := "95"

/-- `DEFAULT_COLORS = [clr + alpha for clr in DEFAULT_COLORS]` in
`config_setup`: transparency appended up front. -/
def DEFAULT_COLORS_D_alpha : List String := DEFAULT_COLORS_D.map (fun c => c ++ alphaD)

/-- The color dict of `config_setup`:
`{lbl[i]: DEFAULT_COLORS[i % len(DEFAULT_COLORS)] for i in range(len(lbl))}`
(a dict comprehension, so later duplicate labels overwrite earlier ones). -/
def colorsDictD (lbl : List String) : List (String × String) :=
  lbl.enum.foldl
    (fun m iv =>
      dinsert m iv.2 (DEFAULT_COLORS_D_alpha.getD (iv.1 % DEFAULT_COLORS_D_alpha.length) ""))
    []

/-- The `options` dict `config_setup` publishes. -/
structure Opts where
  ents : List String
  colors : List (String × String)
  template : String
deriving DecidableEq, Repr

/-- The module state of display.py: the `CONFIGURED` flag and the
module-level `options` (unset before the first successful call). -/
structure DState where
  configured : Bool
  options : Option Opts
deriving DecidableEq, Repr

/-- The body of `config_setup` once the guard is passed: sort labels by
descending frequency (`np.argsort(-freq)` with fancy indexing, which can
raise, hence `Option`), prepend the default label, and build the color map
over the alpha-suffixed 19-entry palette. -/
def computeOptions (labels : List String) (frequents : List Int)
    (otherwise : String) : Option Opts :=
  match npIndex labels (argsortDesc frequents) with
  | none => none
  | some sorted =>
    let lbl := otherwise :: sorted
    some { ents := lbl, colors := colorsDictD lbl, template := TPL_ENT_RTL }

/-- Embeds `config_setup` (display.py, lines 5-44) as a state transformer:
if `CONFIGURED` is already set the body is skipped and the state is
untouched; otherwise the options are computed and the flag set.  `none`
models an exception escaping the body. -/
def config_setup (labels : List String) (frequents : List Int) (otherwise : String)
    (st : DState) : Option DState :=
  if st.configured then some st
  else
    match computeOptions labels frequents otherwise with
    | some o => some { configured := true, options := some o }
    | none => none

/-! ## List helper lemmas -/

theorem get?_append_plus {α : Type _} (l₁ l₂ : List α) (n : Nat) :
    (l₁ ++ l₂).get? (l₁.length + n) = l₂.get? n := by
  induction l₁ with
  | nil => simp
  | cons a l ih =>
    simp only [List.cons_append, List.length_cons]
    rw [Nat.add_right_comm]
    simp only [List.get?_cons_succ]
    exact ih

theorem find?_eq_head_filter {α : Type _} (p : α → Bool) (l : List α) :
    l.find? p = (l.filter p).head? := by
  induction l with
  | nil => rfl
  | cons a l ih =>
    by_cases h : p a = true
    · rw [List.find?_cons_of_pos _ h, List.filter_cons_of_pos h]
      rfl
    · rw [List.find?_cons_of_neg _ (by simpa using h),
        List.filter_cons_of_neg (by simpa using h)]
      exact ih

theorem map_filter_comm {α β : Type _} (f : α → β) (p : β → Bool) (l : List α) :
    (l.map f).filter p = (l.filter (fun a => p (f a))).map f := by
  induction l with
  | nil => rfl
  | cons a l ih =>
    by_cases h : p (f a) = true
    · simp [List.filter_cons, h, ih]
    · simp only [Bool.not_eq_true] at h
      simp [List.filter_cons, h, ih]

/-! ## The two merge implementations agree

display.py's `merge` walks a precomputed adjacent-equality mask, splicing the
three lists in place; `DisplaCyFlex.merge` folds a run buffer.  The bridge
lemma tracks the flushed prefix (`pT`, `pW`, `pI`), the buffer
(`bt`, `bw`, `bs`) and the untouched suffix `rest`. -/

theorem mergeDStep_on_append (pT pW : List String) (pI : List (Int × Int))
    (h1 : pW.length = pT.length) (h2 : pI.length = pT.length)
    (bt t bw w : String) (bs s : Int × Int) (RT RW : List String) (RI : List (Int × Int)) :
    mergeDStep pT.length (pT ++ bt :: t :: RT) (pW ++ bw :: w :: RW) (pI ++ bs :: s :: RI) =
      some (pT ++ bt :: RT, pW ++ (bw ++ " " ++ w) :: RW, pI ++ (bs.1, s.2) :: RI) := by
  have hT : (pT ++ bt :: t :: RT).get? pT.length = some bt :=
    get?_append_plus pT (bt :: t :: RT) 0
  have hI0 : (pI ++ bs :: s :: RI).get? pT.length = some bs := by
    rw [← h2]; exact get?_append_plus pI (bs :: s :: RI) 0
  have hI1 : (pI ++ bs :: s :: RI).get? (pT.length + 1) = some s := by
    rw [← h2]; exact get?_append_plus pI (bs :: s :: RI) 1
  have hWd : (pW ++ bw :: w :: RW).drop pT.length = bw :: w :: RW := by
    rw [← h1]; exact List.drop_left pW _
  have hTt : (pT ++ bt :: t :: RT).take pT.length = pT := List.take_left pT _
  have hTd : (pT ++ bt :: t :: RT).drop (pT.length + 2) = RT :=
    List.drop_append 2
  have hWt : (pW ++ bw :: w :: RW).take pT.length = pW := by
    rw [← h1]; exact List.take_left pW _
  have hWdd : (pW ++ bw :: w :: RW).drop (pT.length + 2) = RW := by
    rw [← h1]; exact List.drop_append 2
  have hIt : (pI ++ bs :: s :: RI).take pT.length = pI := by
    rw [← h2]; exact List.take_left pI _
  have hId : (pI ++ bs :: s :: RI).drop (pT.length + 2) = RI := by
    rw [← h2]; exact List.drop_append 2
  unfold mergeDStep
  rw [hT, hI0, hI1, hWd, hTt, hTd, hWt, hWdd, hIt, hId]
  simp

theorem mergeDAux_eq_mergeVAux (rest : List (String × String × (Int × Int))) :
    ∀ (bt bw : String) (bs : Int × Int) (pT pW : List String) (pI : List (Int × Int)),
      pW.length = pT.length → pI.length = pT.length →
      mergeDAux
        (List.zipWith (fun a b => a == b) (bt :: rest.map (fun x => x.1))
          (rest.map (fun x => x.1)))
        pT.length
        (pT ++ bt :: rest.map (fun x => x.1), pW ++ bw :: rest.map (fun x => x.2.1),
          pI ++ bs :: rest.map (fun x => x.2.2)) =
      some (pT ++ (mergeVAux rest bt bw bs).1, pW ++ (mergeVAux rest bt bw bs).2.1,
        pI ++ (mergeVAux rest bt bw bs).2.2) := by
  induction rest with
  | nil =>
    intro bt bw bs pT pW pI _ _
    simp [mergeDAux, mergeVAux]
  | cons hd tl ih =>
    obtain ⟨t, w, s⟩ := hd
    intro bt bw bs pT pW pI h1 h2
    by_cases ht : t = bt
    · subst ht
      simp only [List.map_cons, List.zipWith_cons_cons, beq_self_eq_true, mergeDAux,
        if_true, mergeVAux, if_pos rfl]
      rw [mergeDStep_on_append pT pW pI h1 h2 t t bw w bs s]
      exact ih t (bw ++ " " ++ w) (bs.1, s.2) pT pW pI h1 h2
    · have hbeq : (bt == t) = false := by
        simp [beq_eq_false_iff_ne]
        exact fun h => ht h.symm
      simp only [List.map_cons, List.zipWith_cons_cons, hbeq, mergeDAux, if_false,
        Bool.false_eq_true, mergeVAux, if_neg ht]
      have h1' : (pW ++ [bw]).length = (pT ++ [bt]).length := by simp [h1]
      have h2' : (pI ++ [bs]).length = (pT ++ [bt]).length := by simp [h2]
      have := ih t w s (pT ++ [bt]) (pW ++ [bw]) (pI ++ [bs]) h1' h2'
      simp only [List.append_assoc, List.singleton_append, List.length_append,
        List.length_singleton] at this
      simpa [List.append_assoc] using this

theorem zip_map_fst {β γ : Type _} (ts : List String) (l : List (β × γ))
    (h : ts.length = l.length) : (ts.zip l).map (fun x => x.1) = ts :=
  List.map_fst_zip ts l (le_of_eq h)

theorem zip3_map_components (ts ws : List String) (ss : List (Int × Int))
    (hw : ws.length = ts.length) (hs : ss.length = ts.length) :
    ((ts.zip (ws.zip ss)).map (fun x => x.1) = ts ∧
      (ts.zip (ws.zip ss)).map (fun x => x.2.1) = ws) ∧
      (ts.zip (ws.zip ss)).map (fun x => x.2.2) = ss := by
  have hlen : (ws.zip ss).length = ts.length := by
    rw [List.length_zip, hw, hs]; exact Nat.min_self _
  have hsnd : (ts.zip (ws.zip ss)).map (fun x => x.2) = ws.zip ss :=
    List.map_snd_zip ts (ws.zip ss) (le_of_eq hlen)
  refine ⟨⟨zip_map_fst ts _ hlen.symm, ?_⟩, ?_⟩
  · have h' : (ts.zip (ws.zip ss)).map (fun x => x.2.1) =
        ((ts.zip (ws.zip ss)).map (fun x => x.2)).map (fun y => y.1) := by
      rw [List.map_map]; rfl
    rw [h', hsnd]
    exact List.map_fst_zip ws ss (by rw [hw, hs])
  · have h' : (ts.zip (ws.zip ss)).map (fun x => x.2.2) =
        ((ts.zip (ws.zip ss)).map (fun x => x.2)).map (fun y => y.2) := by
      rw [List.map_map]; rfl
    rw [h', hsnd]
    exact List.map_snd_zip ws ss (by rw [hw, hs])

/-- The two merge implementations return the same result on any non-empty
equal-length input (and in particular display.py's `merge` raises nothing). -/
theorem mergeD_eq_mergeV (tags words : List String) (ind : List (Int × Int))
    (hne : tags ≠ []) (hw : words.length = tags.length)
    (hi : ind.length = tags.length) :
    mergeD tags words ind = mergeV tags words ind := by
  obtain ⟨t, ts, rfl⟩ := List.exists_cons_of_ne_nil hne
  obtain ⟨w, ws, rfl⟩ := List.exists_cons_of_ne_nil
    (List.ne_nil_of_length_pos (by rw [hw]; exact Nat.succ_pos _))
  obtain ⟨s, ss, rfl⟩ := List.exists_cons_of_ne_nil
    (List.ne_nil_of_length_pos (by rw [hi]; exact Nat.succ_pos _))
  have hw' : ws.length = ts.length := by simpa using hw
  have hs' : ss.length = ts.length := by simpa using hi
  obtain ⟨⟨e1, e2⟩, e3⟩ := zip3_map_components ts ws ss hw' hs'
  have key := mergeDAux_eq_mergeVAux (ts.zip (ws.zip ss)) t w s [] [] [] rfl rfl
  rw [e1, e2, e3] at key
  simp only [List.nil_append, List.length_nil] at key
  unfold mergeD mergeV
  exact key

/-! ## Properties of the run-collapsing merge -/

theorem mergeVAux_fst_head (rest : List (String × String × (Int × Int))) :
    ∀ bt bw bs, (mergeVAux rest bt bw bs).1.head? = some bt := by
  induction rest with
  | nil => intro bt bw bs; rfl
  | cons hd tl ih =>
    obtain ⟨t, w, s⟩ := hd
    intro bt bw bs
    by_cases ht : t = bt
    · simp only [mergeVAux, if_pos ht]
      exact ih bt (bw ++ " " ++ w) (bs.1, s.2)
    · simp [mergeVAux, if_neg ht]

theorem mergeVAux_lengths (rest : List (String × String × (Int × Int))) :
    ∀ bt bw bs, (mergeVAux rest bt bw bs).2.1.length = (mergeVAux rest bt bw bs).1.length ∧
      (mergeVAux rest bt bw bs).2.2.length = (mergeVAux rest bt bw bs).1.length ∧
      0 < (mergeVAux rest bt bw bs).1.length := by
  induction rest with
  | nil => intro bt bw bs; exact ⟨rfl, rfl, Nat.one_pos⟩
  | cons hd tl ih =>
    obtain ⟨t, w, s⟩ := hd
    intro bt bw bs
    by_cases ht : t = bt
    · simp only [mergeVAux, if_pos ht]
      exact ih bt (bw ++ " " ++ w) (bs.1, s.2)
    · obtain ⟨a, b, c⟩ := ih t w s
      simp only [mergeVAux, if_neg ht]
      exact ⟨by simpa using a, by simpa using b, Nat.succ_pos _⟩

theorem mergeVAux_chain (rest : List (String × String × (Int × Int))) :
    ∀ bt bw bs, List.Chain' (fun a b => a ≠ b) (mergeVAux rest bt bw bs).1 := by
  induction rest with
  | nil => intro bt bw bs; simp [mergeVAux]
  | cons hd tl ih =>
    obtain ⟨t, w, s⟩ := hd
    intro bt bw bs
    by_cases ht : t = bt
    · simp only [mergeVAux, if_pos ht]
      exact ih bt (bw ++ " " ++ w) (bs.1, s.2)
    · simp only [mergeVAux, if_neg ht]
      rw [List.chain'_cons']
      refine ⟨?_, ih t w s⟩
      intro y hy
      rw [mergeVAux_fst_head tl t w s] at hy
      simp only [Option.mem_def, Option.some.injEq] at hy
      subst hy
      exact fun h => ht h.symm

theorem mergeVAux_id (rest : List (String × String × (Int × Int))) :
    ∀ bt bw bs, List.Chain' (fun a b => a ≠ b) (bt :: rest.map (fun x => x.1)) →
      mergeVAux rest bt bw bs =
        (bt :: rest.map (fun x => x.1), bw :: rest.map (fun x => x.2.1),
          bs :: rest.map (fun x => x.2.2)) := by
  induction rest with
  | nil => intro bt bw bs _; rfl
  | cons hd tl ih =>
    obtain ⟨t, w, s⟩ := hd
    intro bt bw bs hch
    simp only [List.map_cons, List.chain'_cons] at hch
    obtain ⟨hne, hch'⟩ := hch
    simp only [mergeVAux]
    rw [if_neg (fun h => hne h.symm), ih t w s hch']
    simp

theorem mergeVAux_schain (rest : List (String × String × (Int × Int))) :
    ∀ bt bw bs b, SChain b (bs :: rest.map (fun x => x.2.2)) →
      SChain b (mergeVAux rest bt bw bs).2.2 := by
  induction rest with
  | nil => intro bt bw bs b h; exact h
  | cons hd tl ih =>
    obtain ⟨t, w, s⟩ := hd
    intro bt bw bs b h
    simp only [List.map_cons, SChain] at h
    obtain ⟨hb, hv, hb2, hv2, hs2⟩ := h
    by_cases ht : t = bt
    · simp only [mergeVAux, if_pos ht]
      apply ih bt (bw ++ " " ++ w) (bs.1, s.2) b
      simp only [SChain]
      refine ⟨hb, ?_, hs2⟩
      calc bs.1 < bs.2 := hv
        _ ≤ s.1 := hb2
        _ < s.2 := hv2
    · simp only [mergeVAux, if_neg ht, SChain]
      refine ⟨hb, hv, ?_⟩
      apply ih t w s bs.2
      simp only [SChain]
      exact ⟨hb2, hv2, hs2⟩

/-- On already-merged input (no two adjacent equal tags) the class merge is
the identity. -/
theorem mergeV_of_chain (tags words : List String) (ind : List (Int × Int))
    (hne : tags ≠ []) (hw : words.length = tags.length)
    (hi : ind.length = tags.length)
    (hch : List.Chain' (fun a b => a ≠ b) tags) :
    mergeV tags words ind = some (tags, words, ind) := by
  obtain ⟨t, ts, rfl⟩ := List.exists_cons_of_ne_nil hne
  obtain ⟨w, ws, rfl⟩ := List.exists_cons_of_ne_nil
    (List.ne_nil_of_length_pos (by rw [hw]; exact Nat.succ_pos _))
  obtain ⟨s, ss, rfl⟩ := List.exists_cons_of_ne_nil
    (List.ne_nil_of_length_pos (by rw [hi]; exact Nat.succ_pos _))
  have hw' : ws.length = ts.length := by simpa using hw
  have hs' : ss.length = ts.length := by simpa using hi
  obtain ⟨⟨e1, e2⟩, e3⟩ := zip3_map_components ts ws ss hw' hs'
  have hid := mergeVAux_id (ts.zip (ws.zip ss)) t w s (by rw [e1]; exact hch)
  rw [e1, e2, e3] at hid
  show some (mergeVAux (ts.zip (ws.zip ss)) t w s) = _
  rw [hid]

/-! ## Properties of the alignment -/

theorem selOcc_mem (step : Nat) : ∀ (l : List Nat) (pos q : Nat),
    q ∈ selOcc step l pos → q ∈ l := by
  intro l
  induction l with
  | nil => intro pos q h; exact absurd h (List.not_mem_nil q)
  | cons p ps ih =>
    intro pos q h
    simp only [selOcc] at h
    by_cases hc : pos ≤ p
    · rw [if_pos hc] at h
      rcases List.mem_cons.mp h with h1 | h2
      · exact h1 ▸ List.mem_cons_self p ps
      · exact List.mem_cons_of_mem p (ih _ q h2)
    · rw [if_neg hc] at h
      exact List.mem_cons_of_mem p (ih pos q h)

theorem finditer_shape (w t : List Char) (p : Nat × Nat) (hp : p ∈ finditerL w t) :
    (t.drop p.1).take w.length = w ∧ p.2 = p.1 + w.length := by
  unfold finditerL at hp
  rw [List.mem_map] at hp
  obtain ⟨q, hq, rfl⟩ := hp
  have hocc : q ∈ occs w t := selOcc_mem _ _ _ q hq
  unfold occs at hocc
  rw [List.mem_filter] at hocc
  have : matchesAt w t q = true := hocc.2
  unfold matchesAt at this
  exact ⟨by simpa using this, rfl⟩

theorem indicesAuxL_length (t : List Char) : ∀ (ws : List (List Char)) (base : Nat),
    (indicesAuxL ws t base).length = ws.length := by
  intro ws
  induction ws with
  | nil => intro base; rfl
  | cons w ws ih =>
    intro base
    cases h : (finditerL w t).filter (fun p => base ≤ p.1) with
    | nil => simp only [indicesAuxL, h, List.length_cons, ih]
    | cons p rest => simp only [indicesAuxL, h, List.length_cons, ih]

theorem wchain_indicesAux (t : List Char) : ∀ (ws : List (List Char)) (base : Nat),
    WChain t base (ws.zip (indicesAuxL ws t base)) := by
  intro ws
  induction ws with
  | nil => intro base; simp [indicesAuxL, WChain]
  | cons w ws ih =>
    intro base
    cases h : (finditerL w t).filter (fun p => base ≤ p.1) with
    | nil =>
      simp only [indicesAuxL, h, List.zip_cons_cons, WChain]
      refine Or.inl ⟨?_, ih base⟩
      simp
    | cons p rest =>
      have hp : p ∈ (finditerL w t).filter (fun q => base ≤ q.1) := by
        rw [h]; exact List.mem_cons_self _ _
      rw [List.mem_filter] at hp
      obtain ⟨hpf, hple⟩ := hp
      have hble : base ≤ p.1 := by simpa using hple
      obtain ⟨hslice, hlen⟩ := finditer_shape w t p hpf
      simp only [indicesAuxL, h, List.zip_cons_cons, WChain]
      refine Or.inr ⟨p.1, hble, ?_, hslice, ?_⟩
      · rw [hlen]
      · rw [← hlen]
        exact ih p.2

/-- The code's `indices` agrees with the amended claim description
(`find?` of the first finditer occurrence at or after the cursor). -/
theorem indicesAuxL_eq_alignAmendedAux (t : List Char) :
    ∀ (ws : List (List Char)) (base : Nat),
      indicesAuxL ws t base = alignAmendedAux ws t base := by
  intro ws
  induction ws with
  | nil => intro base; rfl
  | cons w ws ih =>
    intro base
    cases h : (finditerL w t).filter (fun p => base ≤ p.1) with
    | nil =>
      have hf : (finditerL w t).find? (fun p => base ≤ p.1) = none := by
        rw [find?_eq_head_filter, h]; rfl
      simp only [indicesAuxL, alignAmendedAux, h, hf, ih]
    | cons p rest =>
      have hf : (finditerL w t).find? (fun p => base ≤ p.1) = some p := by
        rw [find?_eq_head_filter, h]; rfl
      simp only [indicesAuxL, alignAmendedAux, h, hf, ih]

theorem wchain_mem (t : List Char) : ∀ (l : List (List Char × (Int × Int))) (b : Nat),
    WChain t b l → ∀ p ∈ l, p.2 = ((-1 : Int), (-1 : Int)) ∨
      ∃ s : Nat, p.2 = ((s : Int), ((s + p.1.length : Nat) : Int)) ∧
        (t.drop s).take p.1.length = p.1 := by
  intro l
  induction l with
  | nil => intro b _ p hp; exact absurd hp (List.not_mem_nil p)
  | cons hd tl ih =>
    obtain ⟨w, sp⟩ := hd
    intro b hch p hp
    simp only [WChain] at hch
    rcases List.mem_cons.mp hp with rfl | hmem
    · rcases hch with ⟨hsp, _⟩ | ⟨s, _, hsp, hslice, _⟩
      · exact Or.inl hsp
      · exact Or.inr ⟨s, hsp, hslice⟩
    · rcases hch with ⟨_, hch'⟩ | ⟨s, _, _, _, hch'⟩
      · exact ih b hch' p hmem
      · exact ih _ hch' p hmem

theorem wchain_nosent_schain (t : List Char) :
    ∀ (l : List (List Char × (Int × Int))) (b : Nat),
      WChain t b l → (∀ p ∈ l, p.2 ≠ ((-1 : Int), (-1 : Int))) →
      (∀ p ∈ l, p.1 ≠ []) → SChain (b : Int) (l.map (fun x => x.2)) := by
  intro l
  induction l with
  | nil => intro b _ _ _; simp [SChain]
  | cons hd tl ih =>
    obtain ⟨w, sp⟩ := hd
    intro b hch hns hne
    simp only [WChain] at hch
    rcases hch with ⟨hsp, _⟩ | ⟨s, hbs, hsp, _, hch'⟩
    · exact absurd hsp (hns (w, sp) (List.mem_cons_self _ _))
    · have hwne : w ≠ [] := hne (w, sp) (List.mem_cons_self _ _)
      have hwlen : 0 < w.length := List.length_pos.mpr hwne
      simp only [List.map_cons, SChain, hsp]
      refine ⟨by exact_mod_cast hbs, by push_cast; omega, ?_⟩
      have := ih (s + w.length) hch'
        (fun p hp => hns p (List.mem_cons_of_mem _ hp))
        (fun p hp => hne p (List.mem_cons_of_mem _ hp))
      exact this

theorem wchain_kept (t : List Char) :
    ∀ (l : List (List Char × (Int × Int))) (b : Nat),
      WChain t b l → (∀ p ∈ l, p.1 ≠ []) →
      List.Pairwise (fun a c => a.2 ≤ c.1)
        ((l.map (fun x => x.2)).filter (fun sp => 0 ≤ sp.1)) ∧
      ∀ sp ∈ (l.map (fun x => x.2)).filter (fun sp => 0 ≤ sp.1),
        (b : Int) ≤ sp.1 ∧ sp.1 < sp.2 := by
  intro l
  induction l with
  | nil =>
    intro b _ _
    refine ⟨by simp, ?_⟩
    intro sp hsp
    simp at hsp
  | cons hd tl ih =>
    obtain ⟨w, sp⟩ := hd
    intro b hch hne
    have hne' : ∀ p ∈ tl, p.1 ≠ [] := fun p hp => hne p (List.mem_cons_of_mem _ hp)
    simp only [WChain] at hch
    rcases hch with ⟨hsp, hch'⟩ | ⟨s, hbs, hsp, _, hch'⟩
    · subst hsp
      obtain ⟨hpw, hall⟩ := ih b hch' hne'
      have hdrop : ((((w, ((-1 : Int), (-1 : Int))) :: tl).map (fun x => x.2)).filter
          (fun sp => 0 ≤ sp.1)) =
          ((tl.map (fun x => x.2)).filter (fun sp => 0 ≤ sp.1)) := by
        simp [List.filter_cons]
      rw [hdrop]
      exact ⟨hpw, hall⟩
    · subst hsp
      have hwne : w ≠ [] := hne (w, _) (List.mem_cons_self _ _)
      have hwlen : 0 < w.length := List.length_pos.mpr hwne
      obtain ⟨hpw, hall⟩ := ih (s + w.length) hch' hne'
      have hkeep : (((w, ((s : Int), ((s + w.length : Nat) : Int))) :: tl).map
            (fun x => x.2)).filter (fun sp => 0 ≤ sp.1) =
          ((s : Int), ((s + w.length : Nat) : Int)) ::
            ((tl.map (fun x => x.2)).filter (fun sp => 0 ≤ sp.1)) := by
        simp [List.filter_cons]
      rw [hkeep]
      constructor
      · rw [List.pairwise_cons]
        refine ⟨?_, hpw⟩
        intro y hy
        have := (hall y hy).1
        push_cast at this ⊢
        omega
      · intro y hy
        rcases List.mem_cons.mp hy with rfl | hmem
        · constructor
          · show (b : Int) ≤ ((s : Nat) : Int)
            exact_mod_cast hbs
          · show ((s : Nat) : Int) < (((s + w.length : Nat) : Nat) : Int)
            push_cast
            omega
        · obtain ⟨h1, h2⟩ := hall y hmem
          refine ⟨?_, h2⟩
          push_cast at h1 ⊢
          omega

theorem schain_pairwise : ∀ (l : List (Int × Int)) (b : Int), SChain b l →
    List.Pairwise (fun a c => a.2 ≤ c.1) l ∧ ∀ sp ∈ l, b ≤ sp.1 ∧ sp.1 < sp.2 := by
  intro l
  induction l with
  | nil => intro b _; exact ⟨List.Pairwise.nil, fun sp hsp => absurd hsp (List.not_mem_nil sp)⟩
  | cons sp tl ih =>
    intro b hch
    simp only [SChain] at hch
    obtain ⟨hb, hv, hch'⟩ := hch
    obtain ⟨hpw, hall⟩ := ih sp.2 hch'
    constructor
    · rw [List.pairwise_cons]
      exact ⟨fun y hy => (hall y hy).1, hpw⟩
    · intro y hy
      rcases List.mem_cons.mp hy with rfl | hmem
      · exact ⟨hb, hv⟩
      · obtain ⟨h1, h2⟩ := hall y hmem
        exact ⟨le_trans (le_trans hb (le_of_lt hv)) h1, h2⟩

theorem schain_chain_lt : ∀ (l : List (Int × Int)) (b : Int), SChain b l →
    List.Chain' (fun a c => a.1 < c.1) l := by
  intro l
  induction l with
  | nil => intro b _; exact List.chain'_nil
  | cons sp tl ih =>
    intro b hch
    simp only [SChain] at hch
    obtain ⟨hb, hv, hch'⟩ := hch
    cases tl with
    | nil => exact List.chain'_singleton sp
    | cons sp2 tl2 =>
      rw [List.chain'_cons]
      simp only [SChain] at hch'
      refine ⟨lt_of_lt_of_le hv hch'.1, ?_⟩
      apply ih sp.2
      simp only [SChain]
      exact hch'

/-- If the spans fed to `structure_data` are pairwise ordered once the
negative-start ones are dropped, and every nonnegative-start span is valid,
then the resulting entity list satisfies the C5 invariant. -/
theorem structure_entsOK (text title : String) (tags : List String)
    (spans : List (Int × Int)) (hlen : tags.length = spans.length)
    (hpw : List.Pairwise (fun a c => a.2 ≤ c.1) (spans.filter (fun sp => 0 ≤ sp.1)))
    (hval : ∀ sp ∈ spans, 0 ≤ sp.1 → sp.1 < sp.2) :
    EntsOK (structure_data text tags spans title).ents := by
  have hmapsnd : (tags.zip spans).map (fun x => x.2) = spans := by
    rw [show (fun (x : String × (Int × Int)) => x.2) = Prod.snd from rfl]
    exact List.map_snd_zip tags spans (le_of_eq hlen.symm)
  have hmemval : ∀ p ∈ (tags.zip spans).filter (fun p => p.1 ≠ "O" ∧ 0 ≤ p.2.1),
      0 ≤ p.2.1 ∧ p.2.1 < p.2.2 := by
    intro p hp
    obtain ⟨pt, psp⟩ := p
    obtain ⟨hmem, hpred⟩ := List.mem_filter.mp hp
    have hpred' : pt ≠ "O" ∧ 0 ≤ psp.1 := by simpa using hpred
    have hsp : psp ∈ spans := (List.of_mem_zip hmem).2
    exact ⟨hpred'.2, hval psp hsp hpred'.2⟩
  have hkeptmap : ((tags.zip spans).filter (fun p => 0 ≤ p.2.1)).map (fun x => x.2) =
      spans.filter (fun sp => 0 ≤ sp.1) := by
    conv_rhs => rw [← hmapsnd]
    rw [map_filter_comm]
  have hkeptpw : List.Pairwise (fun (p c : String × (Int × Int)) => p.2.2 ≤ c.2.1)
      ((tags.zip spans).filter (fun p => 0 ≤ p.2.1)) := by
    have := hkeptmap ▸ hpw
    exact (List.pairwise_map.mp this)
  have hsub : ((tags.zip spans).filter (fun p => p.1 ≠ "O" ∧ 0 ≤ p.2.1)).Sublist
      ((tags.zip spans).filter (fun p => 0 ≤ p.2.1)) := by
    apply List.monotone_filter_right
    intro a ha
    simp only [decide_eq_true_eq] at ha ⊢
    exact ha.2
  have hflt : List.Pairwise (fun (p c : String × (Int × Int)) => p.2.2 ≤ c.2.1)
      ((tags.zip spans).filter (fun p => p.1 ≠ "O" ∧ 0 ≤ p.2.1)) :=
    hkeptpw.sublist hsub
  have hstrong : List.Pairwise
      (fun (p c : String × (Int × Int)) => p.2.2 ≤ c.2.1 ∧ p.2.1 < c.2.1)
      ((tags.zip spans).filter (fun p => p.1 ≠ "O" ∧ 0 ≤ p.2.1)) := by
    refine List.Pairwise.imp_of_mem ?_ hflt
    intro p c hp _ hle
    refine ⟨hle, ?_⟩
    have := (hmemval p hp).2
    omega
  constructor
  · show List.Pairwise _ (((tags.zip spans).filter _).map _)
    rw [List.pairwise_map]
    exact hstrong.imp (fun h => h)
  · intro e he
    simp only [structure_data, List.mem_map] at he
    obtain ⟨p, hp, rfl⟩ := he
    exact hmemval p hp

/-! ## Properties of the palette construction -/

theorem dinsert_of_fresh (m : List (String × String)) (k v : String)
    (h : m.any (fun p => p.1 = k) = false) : dinsert m k v = m ++ [(k, v)] := by
  unfold dinsert
  rw [if_neg]
  simp [h]

theorem generate_colors_fold (alpha : String) :
    ∀ (lbls : List String) (k : Nat) (m : List (String × String)),
      lbls.Nodup → (∀ x ∈ lbls, m.any (fun p => p.1 = x) = false) →
      (lbls.enumFrom k).foldl (fun m iv => dinsert m iv.2 (colorAt iv.1 alpha)) m =
        m ++ (lbls.enumFrom k).map (fun iv => (iv.2, colorAt iv.1 alpha)) := by
  intro lbls
  induction lbls with
  | nil => intro k m _ _; simp
  | cons a l ih =>
    intro k m hnd hfresh
    rw [List.enumFrom_cons]
    simp only [List.foldl_cons, List.map_cons]
    rw [dinsert_of_fresh m a (colorAt k alpha) (hfresh a (List.mem_cons_self _ _))]
    rw [ih (k + 1) (m ++ [(a, colorAt k alpha)]) (List.nodup_cons.mp hnd).2 ?_]
    · rw [List.append_assoc]
      rfl
    · intro x hx
      rw [List.any_append]
      have h1 : m.any (fun p => p.1 = x) = false :=
        hfresh x (List.mem_cons_of_mem _ hx)
      have h2 : a ≠ x := by
        intro h
        exact (List.nodup_cons.mp hnd).1 (h ▸ hx)
      simp [h1, h2]

theorem lookup_enum_map (alpha : String) :
    ∀ (lbls : List String) (k i : Nat), lbls.Nodup → i < lbls.length →
      ((lbls.enumFrom k).map (fun iv => (iv.2, colorAt iv.1 alpha))).lookup
          (lbls.getD i "") = some (colorAt (k + i) alpha) := by
  intro lbls
  induction lbls with
  | nil => intro k i _ h; exact absurd h (Nat.not_lt_zero i)
  | cons a l ih =>
    intro k i hnd hi
    rw [List.enumFrom_cons]
    simp only [List.map_cons]
    cases i with
    | zero =>
      simp [List.lookup_cons]
    | succ i =>
      have hgd : (a :: l).getD (i + 1) "" = l.getD i "" := by simp [List.getD]
      have hil : i < l.length := by simpa using hi
      have hmem : l.getD i "" ∈ l := by
        rw [List.getD_eq_getElem l "" hil]
        exact List.getElem_mem hil
      have hne : (l.getD i "" == a) = false := by
        have : l.getD i "" ≠ a := by
          intro h
          exact (List.nodup_cons.mp hnd).1 (h ▸ hmem)
        simpa using this
      rw [hgd, List.lookup_cons]
      simp only [hne]
      rw [ih (k + 1) i (List.nodup_cons.mp hnd).2 hil]
      rw [show k + 1 + i = k + (i + 1) from by omega]

/-- Under pairwise-distinct labels, the color dict of `_generate_colors`
maps the label at position `i` to the palette color at `i mod 13` with the
alpha suffix. -/
theorem generate_colors_lookup (lbls : List String) (alpha : String)
    (hnd : lbls.Nodup) (i : Nat) (hi : i < lbls.length) :
    (generate_colors lbls alpha).lookup (lbls.getD i "") = some (colorAt i alpha) := by
  unfold generate_colors
  rw [show lbls.enum = lbls.enumFrom 0 from rfl]
  rw [generate_colors_fold alpha lbls 0 [] hnd (fun x _ => rfl)]
  rw [List.nil_append]
  have := lookup_enum_map alpha lbls 0 i hnd hi
  simpa using this

theorem insIdx_mem (key : Nat → Int) (i : Nat) :
    ∀ (l : List Nat) (a : Nat), a ∈ insIdx key i l → a = i ∨ a ∈ l := by
  intro l
  induction l with
  | nil =>
    intro a h
    simp only [insIdx] at h
    rcases List.mem_cons.mp h with h | h
    · exact Or.inl h
    · exact absurd h (List.not_mem_nil a)
  | cons j js ih =>
    intro a h
    simp only [insIdx] at h
    by_cases hc : key j < key i
    · rw [if_pos hc] at h
      rcases List.mem_cons.mp h with h | h
      · exact Or.inl h
      · exact Or.inr h
    · rw [if_neg hc] at h
      rcases List.mem_cons.mp h with h | h
      · exact Or.inr (h ▸ List.mem_cons_self j js)
      · rcases ih a h with h | h
        · exact Or.inl h
        · exact Or.inr (List.mem_cons_of_mem j h)

theorem foldl_insIdx_mem (key : Nat → Int) :
    ∀ (is : List Nat) (acc : List Nat) (a : Nat),
      a ∈ is.foldl (fun acc i => insIdx key i acc) acc → a ∈ acc ∨ a ∈ is := by
  intro is
  induction is with
  | nil => intro acc a h; exact Or.inl h
  | cons i is ih =>
    intro acc a h
    simp only [List.foldl_cons] at h
    rcases ih (insIdx key i acc) a h with h | h
    · rcases insIdx_mem key i acc a h with h | h
      · exact Or.inr (h ▸ List.mem_cons_self i is)
      · exact Or.inl h
    · exact Or.inr (List.mem_cons_of_mem i h)

theorem argsortDesc_mem (xs : List Int) (j : Nat) (h : j ∈ argsortDesc xs) :
    j < xs.length := by
  unfold argsortDesc at h
  rcases foldl_insIdx_mem _ (List.range xs.length) [] j h with h | h
  · exact absurd h (List.not_mem_nil j)
  · exact List.mem_range.mp h

/-- With frequencies of the same length as the labels, `_prepare_labels`
succeeds (NumPy fancy indexing stays in bounds). -/
theorem prepare_labels_eqlen (d : String) (lbls : List String) (freqs : List Int)
    (h : freqs.length = lbls.length) :
    (prepare_labels d lbls (some freqs)).isSome = true := by
  have hall : ((argsortDesc freqs).all fun i => decide (i < lbls.length)) = true := by
    rw [List.all_eq_true]
    intro i hi
    have := argsortDesc_mem freqs i hi
    simp only [decide_eq_true_eq]
    omega
  simp [prepare_labels, npIndex, hall]

/-! ## The structuring comprehensions, index-based vs zip-based -/

theorem entsIdxBoth_eq_filter : ∀ (tags : List String) (ind : List (Int × Int)),
    tags.length ≤ ind.length →
    entsIdxBoth tags ind = ((tags.zip ind).filter (fun p => p.1 ≠ "O" ∧ 0 ≤ p.2.1)).map
      (fun p => ⟨p.2.1, p.2.2, p.1⟩) := by
  intro tags
  induction tags with
  | nil => intro ind _; rfl
  | cons t ts ih =>
    intro ind hlen
    cases ind with
    | nil => simp at hlen
    | cons sp ss =>
      have tail := ih ss (by simpa using hlen)
      unfold entsIdxBoth at tail ⊢
      rw [List.length_cons, List.range_succ_eq_map, List.filterMap_cons, List.filterMap_map]
      rw [List.filterMap_congr (fun i _ => rfl : ∀ i ∈ List.range ts.length,
        ((fun i => match (t :: ts).get? i, (sp :: ss).get? i with
          | some tg, some spn =>
            if tg ≠ "O" ∧ 0 ≤ spn.1 then some (⟨spn.1, spn.2, tg⟩ : Ent) else none
          | _, _ => none) ∘ Nat.succ) i =
        (fun i => match ts.get? i, ss.get? i with
          | some tg, some spn =>
            if tg ≠ "O" ∧ 0 ≤ spn.1 then some (⟨spn.1, spn.2, tg⟩ : Ent) else none
          | _, _ => none) i)]
      rw [tail]
      by_cases hq : t ≠ "O" ∧ 0 ≤ sp.1
      · simp [List.filter_cons, hq]
      · simp [List.filter_cons, hq]

theorem entsIdxTag_eq_filter : ∀ (tags : List String) (ind : List (Int × Int)),
    tags.length ≤ ind.length →
    entsIdxTag tags ind = ((tags.zip ind).filter (fun p => p.1 ≠ "O")).map
      (fun p => ⟨p.2.1, p.2.2, p.1⟩) := by
  intro tags
  induction tags with
  | nil => intro ind _; rfl
  | cons t ts ih =>
    intro ind hlen
    cases ind with
    | nil => simp at hlen
    | cons sp ss =>
      have tail := ih ss (by simpa using hlen)
      unfold entsIdxTag at tail ⊢
      rw [List.length_cons, List.range_succ_eq_map, List.filterMap_cons, List.filterMap_map]
      rw [List.filterMap_congr (fun i _ => rfl : ∀ i ∈ List.range ts.length,
        ((fun i => match (t :: ts).get? i, (sp :: ss).get? i with
          | some tg, some spn => if tg ≠ "O" then some (⟨spn.1, spn.2, tg⟩ : Ent) else none
          | _, _ => none) ∘ Nat.succ) i =
        (fun i => match ts.get? i, ss.get? i with
          | some tg, some spn => if tg ≠ "O" then some (⟨spn.1, spn.2, tg⟩ : Ent) else none
          | _, _ => none) i)]
      rw [tail]
      by_cases hq : t ≠ "O"
      · simp [List.filter_cons, hq]
      · simp [List.filter_cons, hq]

/-! ## Claim theorems -/

/-- C1 (counterexample): for words `["a", "aa"]` and text `"aaa"` the code
emits `(-1, -1)` for `"aa"`, although `"aa"` occurs as a literal substring at
offset `1 ≥ base = 1`; the claim's "first occurrence of the word as a literal
substring whose start offset is >= base" (formalised from the claim's words
by `alignClaim`) predicts `(1, 3)`.  The finditer scan is non-overlapping:
after matching `"aa"` at 0 it resumes at offset 2, so the occurrence at 1 is
never seen. -/
theorem claim1_counterexample :
    indices ["a", "aa"] "aaa" = [(0, 1), (-1, -1)] ∧
    alignClaim ["a", "aa"] "aaa" = [(0, 1), (1, 3)] ∧
    indices ["a", "aa"] "aaa" ≠ alignClaim ["a", "aa"] "aaa" := by
  refine ⟨by decide, by decide, by decide⟩

/-- C1 (amended): the cursor loop of `indices` emits one span per word in
order with `align([], text) = []`, and for each word selects the first
occurrence with start `>= base` among the *non-overlapping left-to-right*
(finditer) occurrences — not among all substring occurrences; on a match the
cursor advances to its end, on a miss the word gets `(-1, -1)` and the
cursor is unchanged (the `find?` formulation `alignAmended`). -/
theorem claim1_align (words : List String) (text : String) :
    indices words text = alignAmended words text ∧
    (indices words text).length = words.length ∧
    indices ([] : List String) text = [] := by
  refine ⟨?_, ?_, rfl⟩
  · show indicesAuxL (words.map (fun w => w.data)) text.data 0 =
      alignAmendedAux (words.map (fun w => w.data)) text.data 0
    exact indicesAuxL_eq_alignAmendedAux text.data (words.map (fun w => w.data)) 0
  · unfold indices indicesL
    rw [indicesAuxL_length]
    simp

/-- C2 (counterexample): display.py's `structure` keeps the invalid span
`(-1, -1)` (it filters only on the tag), contradicting the claim that the
structuring operation drops every entry with an invalid span; the claim's
index comprehension `entsIdxBoth` drops it. -/
theorem claim2_counterexample :
    structureD "ab" ["A"] [(-1, -1)] "" =
      some (Doc.mk "ab" [Ent.mk (-1) (-1) "A"] "") ∧
    entsIdxBoth ["A"] [(-1, -1)] = [] := by
  refine ⟨by decide, by decide⟩

/-- C2 (amended): for equal-length inputs, `structure_data` returns exactly
the `{start, end, label}` triples at indices where the tag is not `'O'` and
the span start is `≥ 0`, in index order; the free function `structure`
applies only the tag filter and keeps invalid spans. -/
theorem claim2_structure (text title : String) (tags : List String)
    (ind : List (Int × Int)) (hlen : tags.length = ind.length) :
    (structure_data text tags ind title).ents = entsIdxBoth tags ind ∧
    structureD text tags ind title =
      some (Doc.mk text (entsIdxTag tags ind) title) := by
  constructor
  · rw [entsIdxBoth_eq_filter tags ind (le_of_eq hlen)]
    rfl
  · rw [entsIdxTag_eq_filter tags ind (le_of_eq hlen)]
    unfold structureD
    rw [if_pos (le_of_eq hlen)]

/-- C2 (witness): the amended theorem applied at a concrete input. -/
theorem claim2_witness :
    (structure_data "ab" ["A", "O"] [(0, 1), (1, 2)] "t").ents =
        entsIdxBoth ["A", "O"] [(0, 1), (1, 2)] ∧
      structureD "ab" ["A", "O"] [(0, 1), (1, 2)] "t" =
        some (Doc.mk "ab" (entsIdxTag ["A", "O"] [(0, 1), (1, 2)]) "t") :=
  claim2_structure "ab" "t" ["A", "O"] [(0, 1), (1, 2)] (by decide)

/-- C3 (counterexample): mismatched lengths do not raise any `InputError`
(no such class exists in the code): display.py's `merge` happily returns a
partial result on tags of length 2 with one word and no spans. -/
theorem claim3_counterexample :
    mergeD ["A", "B"] ["w"] [] = some (["A", "B"], ["w"], []) := by decide

/-- C3 (amended): merge performs no input validation and no `InputError`
exists: display.py's `merge` returns empty outputs on empty input, the class
merge raises `IndexError` (modelled `none`) on empty input, and on non-empty
equal-length input neither merge raises. -/
theorem claim3_merge_errors :
    mergeD [] [] [] = some ([], [], []) ∧ mergeV [] [] [] = none ∧
    ∀ (tags words : List String) (ind : List (Int × Int)), tags ≠ [] →
      words.length = tags.length → ind.length = tags.length →
      (mergeD tags words ind).isSome = true := by
  refine ⟨rfl, rfl, ?_⟩
  intro tags words ind hne hw hi
  rw [mergeD_eq_mergeV tags words ind hne hw hi]
  obtain ⟨t, ts, rfl⟩ := List.exists_cons_of_ne_nil hne
  obtain ⟨w, ws, rfl⟩ := List.exists_cons_of_ne_nil
    (List.ne_nil_of_length_pos (by rw [hw]; exact Nat.succ_pos _))
  obtain ⟨s, ss, rfl⟩ := List.exists_cons_of_ne_nil
    (List.ne_nil_of_length_pos (by rw [hi]; exact Nat.succ_pos _))
  rfl

/-- C3 (witness): the positive part of the amended theorem at a concrete
input. -/
theorem claim3_witness : (mergeD ["A"] ["w"] [(0, 1)]).isSome = true :=
  claim3_merge_errors.2.2 ["A"] ["w"] [(0, 1)] (by decide) (by decide) (by decide)

/-- C4 (counterexample): `"a"` and `"aa"` occur in `"aaa"` at disjoint
non-overlapping positions in the listed order (offsets 0 and 1), yet
`align` returns the sentinel for `"aa"`, so the starts are not strictly
increasing and the second slice condition fails. -/
theorem claim4_counterexample :
    (("aaa".data.drop 0).take 1 = "a".data ∧
      ("aaa".data.drop 1).take 2 = "aa".data ∧ 0 + 1 ≤ 1) ∧
    indices ["a", "aa"] "aaa" = [(0, 1), (-1, -1)] ∧
    ¬ ((0 : Int) < (-1 : Int)) := by
  refine ⟨by decide, by decide, by decide⟩

/-- C4 (amended): if every word is non-empty and every word found a match
(no sentinel in the output), the spans have strictly increasing starts and
each slices back to its word.  The claim's premise — the words occur at
disjoint in-order positions — does not by itself exclude sentinels, because
the occurrence scan is non-overlapping (see the counterexample). -/
theorem claim4_aligned (words : List String) (text : String)
    (hne : ∀ w ∈ words, w ≠ "")
    (hns : ∀ sp ∈ indices words text, sp ≠ ((-1 : Int), (-1 : Int))) :
    List.Chain' (fun a b => a.1 < b.1) (indices words text) ∧
    ∀ p ∈ words.zip (indices words text), ∃ s : Nat,
      p.2 = ((s : Int), ((s + p.1.length : Nat) : Int)) ∧
      (text.data.drop s).take p.1.length = p.1.data := by
  have hch := wchain_indicesAux text.data (words.map (fun w => w.data)) 0
  have hlen : (indicesAuxL (words.map (fun w => w.data)) text.data 0).length =
      words.length := by
    rw [indicesAuxL_length]
    simp
  have hzip : (words.map (fun w => w.data)).zip
        (indicesAuxL (words.map (fun w => w.data)) text.data 0) =
      (words.zip (indicesAuxL (words.map (fun w => w.data)) text.data 0)).map
        (Prod.map (fun w => w.data) id) :=
    List.zip_map_left _ _ _
  have hspans : indices words text = indicesAuxL (words.map (fun w => w.data)) text.data 0 :=
    rfl
  constructor
  · rw [hspans]
    have hsent : ∀ p ∈ (words.map (fun w => w.data)).zip
        (indicesAuxL (words.map (fun w => w.data)) text.data 0),
        p.2 ≠ ((-1 : Int), (-1 : Int)) := by
      intro p hp
      have := (List.of_mem_zip (by exact hp)).2
      exact hns p.2 this
    have hwne : ∀ p ∈ (words.map (fun w => w.data)).zip
        (indicesAuxL (words.map (fun w => w.data)) text.data 0), p.1 ≠ [] := by
      intro p hp
      have hp1 := (List.of_mem_zip (by exact hp)).1
      rw [List.mem_map] at hp1
      obtain ⟨w, hw, heq⟩ := hp1
      rw [← heq]
      intro hd
      exact hne w hw (String.ext hd)
    have hsc := wchain_nosent_schain text.data _ 0 hch hsent hwne
    have hms : ((words.map (fun w => w.data)).zip
        (indicesAuxL (words.map (fun w => w.data)) text.data 0)).map (fun x => x.2) =
        indicesAuxL (words.map (fun w => w.data)) text.data 0 := by
      rw [show (fun (x : List Char × (Int × Int)) => x.2) = Prod.snd from rfl]
      exact List.map_snd_zip _ _ (by rw [hlen]; simp)
    rw [hms] at hsc
    exact schain_chain_lt _ 0 hsc
  · intro p hp
    have hp' : (p.1.data, p.2) ∈ (words.map (fun w => w.data)).zip
        (indicesAuxL (words.map (fun w => w.data)) text.data 0) := by
      rw [hzip, List.mem_map]
      exact ⟨p, hp, rfl⟩
    have := wchain_mem text.data _ 0 hch (p.1.data, p.2) hp'
    rcases this with hsent | ⟨s, hsp, hslice⟩
    · exfalso
      have hmem := (List.of_mem_zip hp).2
      exact hns p.2 (by rw [hspans]; exact hmem) hsent
    · exact ⟨s, hsp, hslice⟩

/-- C4 (witness): the amended theorem at a concrete input. -/
theorem claim4_witness :
    List.Chain' (fun a b => a.1 < b.1) (indices ["ab", "cd"] "ab cd") ∧
    ∀ p ∈ (["ab", "cd"] : List String).zip (indices ["ab", "cd"] "ab cd"), ∃ s : Nat,
      p.2 = ((s : Int), ((s + p.1.length : Nat) : Int)) ∧
      ("ab cd".data.drop s).take p.1.length = p.1.data :=
  claim4_aligned ["ab", "cd"] "ab cd" (by decide) (by decide)

/-- C5 (counterexample): the word `"zzz"` does not occur in `"ab"`, so its
span is the sentinel; merging folds it into the `"a"` run, producing the span
`(0, -1)`, and `structure_data` keeps it (its start is `≥ 0`) — an entity
whose span violates `start < end` reaches the document. -/
theorem claim5_counterexample :
    indices ["a", "zzz"] "ab" = [(0, 1), (-1, -1)] ∧
    mergeV ["T", "T"] ["a", "zzz"] (indices ["a", "zzz"] "ab") =
      some (["T"], ["a zzz"], [(0, -1)]) ∧
    (structure_data "ab" ["T"] [(0, -1)] "").ents = [Ent.mk 0 (-1) "T"] ∧
    ¬ ((0 : Int) < (-1 : Int)) := by
  refine ⟨by decide, by decide, by decide, by decide⟩

/-- C5 (amended): for non-empty words, the entities of the un-merged pipeline
(align then structure_data) are non-overlapping, sorted by start, and all
valid; when merge is applied the same holds provided every word matched —
a sentinel folded into a run can otherwise produce an entity with
`end < start` (see the counterexample). -/
theorem claim5_invariant (text : String) (words tags : List String) (title : String)
    (hne : ∀ w ∈ words, w ≠ "")
    (hlen : tags.length = words.length) :
    EntsOK (structure_data text tags (indices words text) title).ents ∧
    ((∀ sp ∈ indices words text, sp ≠ ((-1 : Int), (-1 : Int))) →
      ∀ t' w' i', mergeV tags words (indices words text) = some (t', w', i') →
        EntsOK (structure_data text t' i' title).ents) := by
  have hch := wchain_indicesAux text.data (words.map (fun w => w.data)) 0
  have hlenspans : (indicesAuxL (words.map (fun w => w.data)) text.data 0).length =
      words.length := by
    rw [indicesAuxL_length]
    simp
  have hspans : indices words text = indicesAuxL (words.map (fun w => w.data)) text.data 0 :=
    rfl
  have hwne : ∀ p ∈ (words.map (fun w => w.data)).zip
      (indicesAuxL (words.map (fun w => w.data)) text.data 0), p.1 ≠ [] := by
    intro p hp
    have hp1 := (List.of_mem_zip (by exact hp)).1
    rw [List.mem_map] at hp1
    obtain ⟨w, hw, heq⟩ := hp1
    rw [← heq]
    intro hd
    exact hne w hw (String.ext hd)
  have hms : ((words.map (fun w => w.data)).zip
      (indicesAuxL (words.map (fun w => w.data)) text.data 0)).map (fun x => x.2) =
      indicesAuxL (words.map (fun w => w.data)) text.data 0 := by
    rw [show (fun (x : List Char × (Int × Int)) => x.2) = Prod.snd from rfl]
    exact List.map_snd_zip _ _ (by rw [hlenspans]; simp)
  constructor
  · obtain ⟨hkpw, hkall⟩ := wchain_kept text.data _ 0 hch hwne
    rw [hms] at hkpw hkall
    apply structure_entsOK text title tags _ (by rw [hspans, hlenspans, hlen])
    · rw [hspans]
      exact hkpw
    · intro sp hsp h0
      have hmem : sp ∈ (indicesAuxL (words.map (fun w => w.data)) text.data 0).filter
          (fun sp => 0 ≤ sp.1) :=
        List.mem_filter.mpr ⟨by rw [← hspans]; exact hsp, by simpa using h0⟩
      exact (hkall sp hmem).2
  · intro hns t' w' i' hm
    have hsent : ∀ p ∈ (words.map (fun w => w.data)).zip
        (indicesAuxL (words.map (fun w => w.data)) text.data 0),
        p.2 ≠ ((-1 : Int), (-1 : Int)) := by
      intro p hp
      have := (List.of_mem_zip (by exact hp)).2
      exact hns p.2 (by rw [hspans]; exact this)
    have hsc0 : SChain ((0 : Nat) : Int) (indices words text) := by
      have := wchain_nosent_schain text.data _ 0 hch hsent hwne
      rw [hms] at this
      exact this
    rcases words with _ | ⟨w, ws⟩
    · simp [mergeV] at hm
    rcases tags with _ | ⟨t, ts⟩
    · simp [mergeV] at hm
    rcases hind : indices (w :: ws) text with _ | ⟨s, ss⟩
    · rw [hind] at hm
      simp [mergeV] at hm
    rw [hind] at hm hsc0
    have hm' : mergeVAux (ts.zip (ws.zip ss)) t w s = (t', w', i') := Option.some.inj hm
    have hw' : ws.length = ts.length := by simpa using hlen.symm
    have hs' : ss.length = ts.length := by
      have h1 : (indices (w :: ws) text).length = (t :: ts).length := by
        rw [hspans, hlenspans, hlen]
      rw [hind] at h1
      simpa using h1
    obtain ⟨⟨e1, e2⟩, e3⟩ := zip3_map_components ts ws ss hw' hs'
    have hscmerged : SChain ((0 : Nat) : Int) i' := by
      have := mergeVAux_schain (ts.zip (ws.zip ss)) t w s ((0 : Nat) : Int)
        (by rw [e3]; exact hsc0)
      rw [hm'] at this
      exact this
    obtain ⟨hpwall, hall⟩ := schain_pairwise i' _ hscmerged
    apply structure_entsOK text title t' i'
    · have hlens := mergeVAux_lengths (ts.zip (ws.zip ss)) t w s
      rw [hm'] at hlens
      exact hlens.2.1.symm
    · exact hpwall.sublist (List.filter_sublist i')
    · intro sp hsp _
      exact (hall sp hsp).2

/-- C5 (witness): both halves of the amended theorem at concrete inputs. -/
theorem claim5_witness :
    EntsOK (structure_data "a b" ["T", "T"] (indices ["a", "b"] "a b") "").ents ∧
    EntsOK (structure_data "a b" ["T"] [(0, 3)] "").ents := by
  have h := claim5_invariant "a b" ["a", "b"] ["T", "T"] "" (by decide) (by decide)
  exact ⟨h.1, h.2 (by decide) ["T"] ["a b"] [(0, 3)] (by decide)⟩

/-- C6: on non-empty equal-length input both merges return the same output;
the merged tags have no two adjacent equal entries; merge is the identity on
already-merged input; and merging a merged output changes nothing
(idempotence). -/
theorem claim6_merge_rle (tags words : List String) (ind : List (Int × Int))
    (hne : tags ≠ []) (hw : words.length = tags.length)
    (hi : ind.length = tags.length) :
    ∃ t' w' i', mergeV tags words ind = some (t', w', i') ∧
      mergeD tags words ind = some (t', w', i') ∧
      List.Chain' (fun a b => a ≠ b) t' ∧
      (List.Chain' (fun a b => a ≠ b) tags → (t', w', i') = (tags, words, ind)) ∧
      mergeV t' w' i' = some (t', w', i') := by
  have heqDV := mergeD_eq_mergeV tags words ind hne hw hi
  obtain ⟨t, ts, rfl⟩ := List.exists_cons_of_ne_nil hne
  obtain ⟨w, ws, rfl⟩ := List.exists_cons_of_ne_nil
    (List.ne_nil_of_length_pos (by rw [hw]; exact Nat.succ_pos _))
  obtain ⟨s, ss, rfl⟩ := List.exists_cons_of_ne_nil
    (List.ne_nil_of_length_pos (by rw [hi]; exact Nat.succ_pos _))
  have hw' : ws.length = ts.length := by simpa using hw
  have hs' : ss.length = ts.length := by simpa using hi
  obtain ⟨⟨e1, e2⟩, e3⟩ := zip3_map_components ts ws ss hw' hs'
  obtain ⟨hl1, hl2, hl3⟩ := mergeVAux_lengths (ts.zip (ws.zip ss)) t w s
  refine ⟨(mergeVAux (ts.zip (ws.zip ss)) t w s).1,
    (mergeVAux (ts.zip (ws.zip ss)) t w s).2.1,
    (mergeVAux (ts.zip (ws.zip ss)) t w s).2.2, ?_, ?_, ?_, ?_, ?_⟩
  · rfl
  · rw [heqDV]; rfl
  · exact mergeVAux_chain (ts.zip (ws.zip ss)) t w s
  · intro hch
    have hid := mergeVAux_id (ts.zip (ws.zip ss)) t w s (by rw [e1]; exact hch)
    rw [hid]
    show (t :: (ts.zip (ws.zip ss)).map (fun x => x.1),
        w :: (ts.zip (ws.zip ss)).map (fun x => x.2.1),
        s :: (ts.zip (ws.zip ss)).map (fun x => x.2.2)) = _
    rw [e1, e2, e3]
  · exact mergeV_of_chain _ _ _ (List.ne_nil_of_length_pos hl3) hl1 hl2
      (mergeVAux_chain (ts.zip (ws.zip ss)) t w s)

/-- C6 (witness): the theorem at a concrete input. -/
theorem claim6_witness :
    ∃ t' w' i',
      mergeV ["A", "A", "B"] ["x", "y", "z"] [(0, 1), (2, 3), (4, 5)] =
          some (t', w', i') ∧
        mergeD ["A", "A", "B"] ["x", "y", "z"] [(0, 1), (2, 3), (4, 5)] =
          some (t', w', i') ∧
        List.Chain' (fun a b => a ≠ b) t' ∧
        (List.Chain' (fun a b => a ≠ b) ["A", "A", "B"] →
          (t', w', i') = (["A", "A", "B"], ["x", "y", "z"], [(0, 1), (2, 3), (4, 5)])) ∧
        mergeV t' w' i' = some (t', w', i') :=
  claim6_merge_rle ["A", "A", "B"] ["x", "y", "z"] [(0, 1), (2, 3), (4, 5)]
    (by decide) (by decide) (by decide)

/-- C7 (counterexample): with the default label duplicating the only label,
the resulting list is `['Misc', 'Misc']` and the dict assignment at position
1 overwrites position 0's: `'Misc'` is mapped to the color at index 1 plus
alpha, not to `palette[0 mod 13] + alpha` as the claim asserts for the label
at position 0. -/
theorem claim7_counterexample :
    prepare_labels "Misc" ["Misc"] none = some ["Misc", "Misc"] ∧
    generate_colors ["Misc", "Misc"] "95" = [("Misc", "#e4e7d295")] ∧
    colorAt 0 "95" = "#f8e71c95" ∧
    ("#e4e7d295" : String) ≠ "#f8e71c95" := by
  refine ⟨by decide, by decide, by decide, by decide⟩

/-- C7 (amended): the default label is prepended unconditionally; when the
resulting label list is duplicate-free, the color map sends the label at
position `i` to the palette color at `i mod palette_size` with the alpha
suffix appended; the class palette has 13 pairwise-distinct colors, and the
19-entry display palette contains exactly 13 distinct colors.  With
duplicate labels the last occurrence's color wins (see the counterexample). -/
theorem claim7_palette (d : String) (lbls : List String) (alpha : String)
    (hnd : (d :: lbls).Nodup) :
    prepare_labels d lbls none = some (d :: lbls) ∧
    (∀ i, i < (d :: lbls).length →
      (generate_colors (d :: lbls) alpha).lookup ((d :: lbls).getD i "") =
        some (colorAt i alpha)) ∧
    DEFAULT_COLORS.Nodup ∧ DEFAULT_COLORS.length = 13 ∧
    DEFAULT_COLORS_D.dedup.length = 13 ∧ DEFAULT_COLORS_D.length = 19 := by
  refine ⟨rfl, ?_, by decide, by decide, by decide, by decide⟩
  intro i hi
  exact generate_colors_lookup (d :: lbls) alpha hnd i hi

/-- C7 (witness): the amended theorem at a concrete input. -/
theorem claim7_witness :
    prepare_labels "Misc" ["ORG"] none = some ["Misc", "ORG"] ∧
    (∀ i, i < (["Misc", "ORG"] : List String).length →
      (generate_colors ["Misc", "ORG"] "95").lookup ((["Misc", "ORG"] : List String).getD i "") =
        some (colorAt i "95")) ∧
    DEFAULT_COLORS.Nodup ∧ DEFAULT_COLORS.length = 13 ∧
    DEFAULT_COLORS_D.dedup.length = 13 ∧ DEFAULT_COLORS_D.length = 19 :=
  claim7_palette "Misc" ["ORG"] "95" (by decide)

/-- C8 (counterexample): frequencies shorter than the labels do not raise
anything — palette construction succeeds and silently keeps only the two
labels selected by the argsort, contradicting the claimed `ConfigError`. -/
theorem claim8_counterexample :
    prepare_labels "Misc" ["A", "B", "C"] (some [1, 2]) = some ["Misc", "B", "A"] := by
  decide

/-- C8 (amended): no `ConfigError` exists.  With equal lengths construction
succeeds; with frequencies shorter than the labels it silently truncates;
with frequencies longer than the labels NumPy indexing raises `IndexError`
(modelled as `none`). -/
theorem claim8_lengths (d : String) (lbls : List String) (freqs : List Int)
    (h : freqs.length = lbls.length) :
    (prepare_labels d lbls (some freqs)).isSome = true ∧
    prepare_labels "Misc" ["A"] (some [1, 2]) = none :=
  ⟨prepare_labels_eqlen d lbls freqs h, by decide⟩

/-- C8 (witness): the amended theorem at a concrete input (the repo's own
test labels and frequencies). -/
theorem claim8_witness :
    (prepare_labels "Misc" ["ORG", "LOC"] (some [10, 20])).isSome = true ∧
    prepare_labels "Misc" ["A"] (some [1, 2]) = none :=
  claim8_lengths "Misc" ["ORG", "LOC"] [10, 20] (by decide)

/-- C9: the free-function merge of display.py and the class merge of
visualizer.py return equal outputs on every non-empty equal-length input. -/
theorem claim9_merge_equiv (tags words : List String) (ind : List (Int × Int))
    (hne : tags ≠ []) (hw : words.length = tags.length)
    (hi : ind.length = tags.length) :
    mergeD tags words ind = mergeV tags words ind :=
  mergeD_eq_mergeV tags words ind hne hw hi

/-- C9 (witness): the theorem at a concrete input. -/
theorem claim9_witness :
    mergeD ["A", "A", "B"] ["x", "y", "z"] [(0, 1), (2, 3), (4, 5)] =
      mergeV ["A", "A", "B"] ["x", "y", "z"] [(0, 1), (2, 3), (4, 5)] :=
  claim9_merge_equiv ["A", "A", "B"] ["x", "y", "z"] [(0, 1), (2, 3), (4, 5)]
    (by decide) (by decide) (by decide)

/-- C10: once a first call to `config_setup` from the initial module state
has completed (setting `CONFIGURED`), every subsequent call — with any
labels, frequencies and default-label arguments — leaves the module state
(options mapping included) unchanged. -/
theorem claim10_config_frame (l0 : List String) (f0 : List Int) (o0 : String)
    (st1 : DState)
    (h : config_setup l0 f0 o0 (DState.mk false none) = some st1)
    (l : List String) (f : List Int) (o : String) :
    config_setup l f o st1 = some st1 := by
  have hc : st1.configured = true := by
    unfold config_setup at h
    rw [if_neg (by simp)] at h
    cases hx : computeOptions l0 f0 o0 with
    | none => rw [hx] at h; cases h
    | some opts =>
      rw [hx] at h
      have := Option.some.inj h
      rw [← this]
  unfold config_setup
  rw [if_pos hc]

/-- C10 (witness): a concrete first call followed by a second call with
different arguments. -/
theorem claim10_witness :
    config_setup ["B"] [2] "X"
        ((config_setup ["A"] [1] "Address" (DState.mk false none)).getD
          (DState.mk false none)) =
      some ((config_setup ["A"] [1] "Address" (DState.mk false none)).getD
        (DState.mk false none)) :=
  claim10_config_frame ["A"] [1] "Address" _ rfl ["B"] [2] "X"

end DisplacyFlex
